import Mathlib

/-!
Verification of the Ciel download-manager core against its specification.

The Rust sources under `src-tauri/src` are shallowly embedded below:
pure functions become Lean functions over `Nat` / `List Char` / `List`,
machine integers are modelled as `Nat` with explicit `% 2^64` (respectively
`% 2^32`, `% 256`) wherever the Rust code can wrap, and fallible code
returns `Option` / `Except`.  Stateful command handlers are embedded as
explicit state-passing functions over a registry state.  Case folding of
strings is modelled on the ASCII fragment, which is the fragment all the
claims exercise.
-/

namespace Ciel

/-! ## db.rs: status and protocol codecs -/

/-- Embeds `db.rs / enum DownloadStatus`. -/
inductive DownloadStatus where
  | Queued
  | Downloading
  | Paused
  | Completed
  | Error
deriving DecidableEq, Repr

/-- Embeds `db.rs / enum DownloadProtocol`. -/
inductive DownloadProtocol where
  | Http
  | Torrent
  | Video
deriving DecidableEq, Repr

/-- Embeds `db.rs / DownloadStatus::as_str`. -/
def DownloadStatus.as_str : DownloadStatus → String
  | .Queued => "queued"
  | .Downloading => "downloading"
  | .Paused => "paused"
  | .Completed => "completed"
  | .Error => "error"

/-- Embeds `db.rs / DownloadStatus::from_str`; unrecognized strings fall to `Queued`. -/
def DownloadStatus.from_str (s : String) : DownloadStatus :=
  if s = "queued" then .Queued
  else if s = "downloading" then .Downloading
  else if s = "paused" then .Paused
  else if s = "completed" then .Completed
  else if s = "error" then .Error
  else .Queued

/-- Embeds `db.rs / DownloadProtocol::as_str`. -/
def DownloadProtocol.as_str : DownloadProtocol → String
  | .Http => "http"
  | .Torrent => "torrent"
  | .Video => "video"

/-- Embeds `db.rs / DownloadProtocol::from_str`; unrecognized strings fall to `Http`. -/
def DownloadProtocol.from_str (s : String) : DownloadProtocol :=
  if s = "torrent" then .Torrent
  else if s = "video" then .Video
  else .Http

/-! ## ASCII helpers shared by several embeddings -/

/-- ASCII lower-casing of one character (models Rust case folding on the ASCII range). -/
def asciiLowerChar (c : Char) : Char :=
  if 'A' ≤ c ∧ c ≤ 'Z' then Char.ofNat (c.toNat + 32) else c

/-- ASCII upper-casing of one character. -/
def asciiUpperChar (c : Char) : Char :=
  if 'a' ≤ c ∧ c ≤ 'z' then Char.ofNat (c.toNat - 32) else c

/-- Rust `char::is_ascii_hexdigit`. -/
def isHexDigitA (c : Char) : Bool :=
  ('0' ≤ c && c ≤ '9') || ('a' ≤ c && c ≤ 'f') || ('A' ≤ c && c ≤ 'F')

/-- Rust `str::contains(needle)` on character lists (`needle.is_prefix_of` some suffix). -/
def containsSubL (n : List Char) : List Char → Bool
  | [] => n.isEmpty
  | c :: t => n.isPrefixOf (c :: t) || containsSubL n t

/-- Rust `str::contains` lifted to `String`. -/
def containsSub (hay needle : String) : Bool :=
  containsSubL needle.toList hay.toList

/-- Rust `str::find(needle)`: index of the first occurrence of a substring. -/
def findSubIdx (n : List Char) : List Char → Option Nat
  | [] => if n.isEmpty then some 0 else none
  | c :: t => if n.isPrefixOf (c :: t) then some 0 else (findSubIdx n t).map (· + 1)

/-! ## clipboard.rs: the auto-catch URL heuristic -/

/-- Embeds `clipboard.rs / is_valid_url` on character lists.  Rust checks the
lower-cased string for the three protocol prefixes, and otherwise looks for a
dot, the absence of the space character, and a byte length above 3. -/
def isValidUrlL (cs : List Char) : Bool :=
  let lower := cs.map asciiLowerChar
  if "http://".toList.isPrefixOf lower || "https://".toList.isPrefixOf lower
      || "magnet:".toList.isPrefixOf lower then
    true
  else if cs.contains '.' && !(cs.contains ' ') && (cs.map Char.utf8Size).sum > 3 then
    true
  else
    false

/-- Embeds `clipboard.rs / is_valid_url`. -/
def is_valid_url (url : String) : Bool := isValidUrlL url.toList

/-- Written from the words of the claim (C9) for comparison with the code:
accepts the protocol prefixes case-insensitively, or a string containing `.`
with no whitespace anywhere and length greater than 3. -/
def claimValidUrl (cs : List Char) : Bool :=
  let lower := cs.map asciiLowerChar
  "http://".toList.isPrefixOf lower || "https://".toList.isPrefixOf lower
    || "magnet:".toList.isPrefixOf lower
    || (cs.contains '.' && !(cs.any Char.isWhitespace) && (cs.map Char.utf8Size).sum > 3)

/-- Amended heuristic: the whitespace exclusion is only for the space
character `' '`, exactly as the code checks. -/
def amendedValidUrl (cs : List Char) : Bool :=
  let lower := cs.map asciiLowerChar
  "http://".toList.isPrefixOf lower || "https://".toList.isPrefixOf lower
    || "magnet:".toList.isPrefixOf lower
    || (cs.contains '.' && !(cs.contains ' ') && (cs.map Char.utf8Size).sum > 3)

/-! ## downloader.rs: SharedRateLimiter::acquire -/

/-- Embeds the `while remaining > 0` loop of `downloader.rs /
SharedRateLimiter::acquire`.  Real time is abstracted into the `refill`
oracle (tokens added by the 10 ms refill step at each iteration; `0` models
an iteration whose elapsed time was below the refill granularity) and the
cancellation flag into the `cancel` oracle.  The result is the final token
count paired with the number of 10 ms sleeps performed.  `fuel` bounds the
number of loop iterations of this embedding. -/
def acquireGo (limit : Nat) (cancel : Nat → Bool) (refill : Nat → Nat) :
    Nat → Nat → Nat → Nat → Nat → Nat × Nat
  | 0, _, _, tokens, sleeps => (tokens, sleeps)
  | fuel+1, i, remaining, tokens, sleeps =>
    if remaining = 0 then (tokens, sleeps)
    else if cancel i then (tokens, sleeps)
    else
      let tokens1 := min (tokens + refill i) limit
      let take := min remaining tokens1
      let tokens2 := tokens1 - take
      let remaining2 := remaining - take
      if remaining2 = 0 then (tokens2, sleeps)
      else acquireGo limit cancel refill fuel (i + 1) remaining2 tokens2 (sleeps + 1)

/-- Embeds `downloader.rs / SharedRateLimiter::acquire`: the guard
`if self.limit == 0 { return; }` precedes the token loop. -/
def acquire (limit amount : Nat) (cancel : Nat → Bool) (refill : Nat → Nat)
    (tokens fuel : Nat) : Nat × Nat :=
  if limit = 0 then (tokens, 0)
  else acquireGo limit cancel refill fuel 0 amount tokens 0

/-! ## downloader.rs: worker-count computation of the dispatch loop -/

/-- Embeds `downloader.rs / Downloader::download`, lines 453-465: the initial
target worker count.  `connections` is the `u8` config value and `speedLimit`
the `u64` setting.  The Rust expression `(self.config.speed_limit /
min_speed_per_worker) as u8` truncates the quotient to eight bits, which the
`% 256` makes explicit. -/
def targetWorkers (connections speedLimit : Nat) : Nat :=
  if speedLimit > 0 then
    let calculatedMax := (speedLimit / (512 * 1024)) % 256
    min connections (max calculatedMax 1)
  else connections

/-! ## downloader.rs: chunk planning -/

/-- Modulus of `u64` arithmetic. -/
def u64Mod : Nat := 2 ^ 64

/-- Wrapping `u64` subtraction. -/
def wsub (a b : Nat) : Nat := (a % u64Mod + (u64Mod - b % u64Mod)) % u64Mod

/-- Wrapping `u64` addition. -/
def wadd (a b : Nat) : Nat := (a + b) % u64Mod

/-- A planned byte range (`WorkChunk` without progress): `start` and `stop`
are the inclusive `start` / `end` offsets of `downloader.rs`. -/
structure PChunk where
  start : Nat
  stop : Nat
deriving DecidableEq, Repr

/-- The 10 MiB cap `max_chunk` of `downloader.rs / Downloader::download`. -/
def maxChunkLen : Nat := 10 * 1024 * 1024

/-- Embeds the `while (end - start + 1) > max_chunk` splitting loop of
`downloader.rs / Downloader::download` (lines 392-414): emit 10 MiB pieces
until the remaining piece fits, then emit it.  All arithmetic wraps at
`2^64` exactly as the Rust `u64` operations do; `fuel` bounds the number of
iterations of this embedding. -/
def splitChunk : Nat → Nat → Nat → List PChunk
  | 0, s, e => [⟨s, e⟩]
  | fuel + 1, s, e =>
    if wadd (wsub e s) 1 > maxChunkLen then
      ⟨s, wsub (wadd s maxChunkLen) 1⟩ :: splitChunk fuel (wadd s maxChunkLen) e
    else [⟨s, e⟩]

/-- Embeds the first-start chunk planning of `downloader.rs /
Downloader::download` (lines 374-426): `num_chunks = connections * 8`,
`chunk_size = total_size / num_chunks`, equal ranges with the remainder on
the last one, each range split at 10 MiB. -/
def planChunks (connections totalSize : Nat) : List PChunk :=
  let numChunks := (connections * 8) % u64Mod
  let chunkSize := totalSize / numChunks
  (List.range numChunks).foldr
    (fun i acc =>
      let s := (i * chunkSize) % u64Mod
      let e :=
        if i = numChunks - 1 then wsub totalSize 1
        else wsub ((i + 1) * chunkSize % u64Mod) 1
      splitChunk (e / maxChunkLen + 2) s e ++ acc)
    []

/-- Adjacency check: each chunk begins right after the previous one ends. -/
def contiguousB : List PChunk → Bool
  | [] => true
  | [_] => true
  | a :: b :: t => (b.start = a.stop + 1) && contiguousB (b :: t)

/-- Decidable statement that a chunk list is a contiguous, non-overlapping
partition of the interval `[0, totalSize)` (inclusive end offsets). -/
def isPartitionB (cs : List PChunk) (totalSize : Nat) : Bool :=
  match cs with
  | [] => false
  | c :: _ =>
    (c.start = 0 : Bool) && ((cs.getLast?.map PChunk.stop) = some (totalSize - 1) : Bool)
      && cs.all (fun k => k.start ≤ k.stop) && contiguousB cs

/-! ## downloader.rs: HTML response refusal -/

/-- Embeds `downloader.rs / DownloadError` (the variants the claims touch). -/
inductive DownloadError where
  | Network (msg : String)
  | Io (msg : String)
  | NoRangeSupport
  | Cancelled
  | InvalidUrl (msg : String)
deriving DecidableEq, Repr

/-- Rust `reqwest::StatusCode::is_success`. -/
def statusIsSuccess (status : Nat) : Bool := 200 ≤ status && status < 300

/-- Embeds the response validation of the chunked worker in `downloader.rs /
Downloader::download` (lines 558-576): throttling statuses fail the attempt,
non-success statuses fail the attempt, and a `text/html` content type is
refused only when the URL contains `drive.google.com`. -/
def workerResponseCheck (url : String) (status : Nat) (contentType : String) :
    Except DownloadError Unit :=
  if status = 429 || status = 503 then
    .error (.Network "Server throttling")
  else if !statusIsSuccess status then
    .error (.Network "HTTP status")
  else if containsSub contentType "text/html" && containsSub url "drive.google.com" then
    .error (.Network "Google Drive blocked download (Virus Scan or Login required)")
  else .ok ()

/-- Embeds the response validation of `downloader.rs /
Downloader::download_single_connection` (lines 724-732): a `text/html`
content type is refused unconditionally; the URL is not consulted. -/
def singleResponseCheck (contentType : String) : Except DownloadError Unit :=
  if containsSub contentType "text/html" then
    .error (.Network "Server returned a webpage instead of a file. Login may be required.")
  else .ok ()

/-! ## torrent.rs: magnet info-hash extraction -/

/-- State of the base32 bit accumulator: buffer (`u32`), bits pending, bytes emitted. -/
structure B32State where
  buffer : Nat
  bitsLeft : Nat
  output : List Nat
deriving Repr

/-- Value of a character in the RFC 4648 base32 alphabet; characters outside
the alphabet read the zero-initialized `alphabet` array of `torrent.rs`, so
they decode as 0. -/
def b32val (c : Char) : Nat :=
  (("ABCDEFGHIJKLMNOPQRSTUVWXYZ234567".toList.findIdx? (· = c))).getD 0

/-- Embeds the `while bits_left >= 8` drain of `torrent.rs /
extract_info_hash_from_magnet`: emit the top 8 bits (`as u8`) and mask the
buffer down to the remaining bits. -/
def drainBits : Nat → B32State → B32State
  | 0, st => st
  | fuel + 1, st =>
    if st.bitsLeft ≥ 8 then
      drainBits fuel
        ⟨st.buffer % 2 ^ (st.bitsLeft - 8), st.bitsLeft - 8,
          st.output ++ [st.buffer / 2 ^ (st.bitsLeft - 8) % 256]⟩
    else st

/-- One character step of the base32 decoding loop: bytes at or above 128 are
skipped; others shift five more bits into the `u32` buffer. -/
def b32step (st : B32State) (c : Char) : B32State :=
  if c.toNat < 128 then
    let buf := (st.buffer * 32 + b32val c) % 2 ^ 32
    drainBits (st.bitsLeft + 5) ⟨buf, st.bitsLeft + 5, st.output⟩
  else st

/-- The byte output of the base32 decoding loop of `torrent.rs /
extract_info_hash_from_magnet`. -/
def base32DecodeBytes (cs : List Char) : List Nat :=
  (cs.foldl b32step ⟨0, 0, []⟩).output

/-- Rust `hex::encode` digit (lower case). -/
def hexDigitChar (n : Nat) : Char :=
  if n < 10 then Char.ofNat (48 + n) else Char.ofNat (87 + n)

/-- Rust `hex::encode` on a byte list. -/
def hexEncodeBytes (bs : List Nat) : List Char :=
  bs.foldr (fun b acc => hexDigitChar (b / 16) :: hexDigitChar (b % 16) :: acc) []

/-- Embeds `torrent.rs / TorrentManager::extract_info_hash_from_magnet` on
character lists: a bare 40-hex string is accepted directly; otherwise the
token after `btih:` up to `&` is taken from the lower-cased input, decoded
from base32 when it has 32 characters, and returned lower-cased. -/
def extractInfoHashL (m : List Char) : Option (List Char) :=
  if m.length = 40 ∧ m.all isHexDigitA then some (m.map asciiLowerChar)
  else
    let ml := m.map asciiLowerChar
    match findSubIdx "btih:".toList ml with
    | none => none
    | some st =>
      let hashPart := ml.drop (st + 5)
      let hashEnd := (hashPart.findIdx? (· = '&')).getD hashPart.length
      let hash := hashPart.take hashEnd
      if hash.length = 32 then
        some ((hexEncodeBytes (base32DecodeBytes (hash.map asciiUpperChar))).map asciiLowerChar)
      else some (hash.map asciiLowerChar)

/-- Embeds `torrent.rs / TorrentManager::extract_info_hash_from_magnet`. -/
def extract_info_hash_from_magnet (magnet : String) : Option String :=
  (extractInfoHashL magnet.toList).map List.asString

/-! ## commands.rs: registry state and lifecycle commands

The registry is embedded as the list of download rows (in creation order, as
`created_at` orders them) together with the set of ids with a running engine
task; `active` models `manager.active_downloads` joined with the torrent
manager's active session map, so `active.length` is the
`active_count + torrent_active` sum the admission checks read. -/

/-- One registry row, reduced to the fields the lifecycle claims touch. -/
structure Row where
  id : String
  status : DownloadStatus
  protocol : DownloadProtocol
deriving DecidableEq, Repr

/-- Registry rows (oldest first) plus the ids owning a running task. -/
structure RegState where
  rows : List Row
  active : List String
deriving DecidableEq, Repr

/-- Rust `downloads.iter().find(|d| d.id == id)`. -/
def findRow (rows : List Row) (id : String) : Option Row :=
  rows.find? (fun r => r.id = id)

/-- Embeds `db.rs / update_download_status`: set the status of the row with
the given id. -/
def setStatus (rows : List Row) (id : String) (st : DownloadStatus) : List Row :=
  rows.map (fun r => if r.id = id then { r with status := st } else r)

/-- Status column of a row, when the row exists. -/
def statusOf (rows : List Row) (id : String) : Option DownloadStatus :=
  (findRow rows id).map Row.status

/-- Number of rows whose status is `Downloading`. -/
def countDownloading (rows : List Row) : Nat :=
  (rows.filter (fun r => r.status = DownloadStatus.Downloading)).length

/-- Number of registry rows whose status is `Downloading`. -/
def downloadingCount (s : RegState) : Nat := countDownloading s.rows

/-- Embeds the admission path of `commands.rs / add_download` (lines
531-583): queue when not `start_paused` and the active count has reached
`max_concurrent`; insert the row with status `Paused` / `Queued` /
`Downloading` accordingly, and dispatch an engine task only in the last
case. -/
def addDownload (s : RegState) (maxConcurrent : Nat) (newId : String)
    (proto : DownloadProtocol) (startPaused : Bool) : RegState :=
  let shouldQueue := !startPaused && decide (s.active.length ≥ maxConcurrent)
  let st := if startPaused then DownloadStatus.Paused
    else if shouldQueue then DownloadStatus.Queued
    else DownloadStatus.Downloading
  let rows := s.rows ++ [⟨newId, st, proto⟩]
  if startPaused || shouldQueue then ⟨rows, s.active⟩
  else ⟨rows, s.active ++ [newId]⟩

/-- Embeds `commands.rs / pause_download` (lines 867-902): fail when the id
is unknown; otherwise cancel the engine task (for torrents, pause the
session) and set the status to `Paused` — unconditionally, whatever the
current status is. -/
def pauseDownload (s : RegState) (id : String) : Except String RegState :=
  match findRow s.rows id with
  | none => .error "Download not found"
  | some _ => .ok ⟨setStatus s.rows id DownloadStatus.Paused, s.active.filter (· ≠ id)⟩

/-- Embeds `commands.rs / resume_download` (lines 906-983): fail when the id
is unknown; fail with `AlreadyCompleted` on a `Completed` row; if an HTTP
task is already active only align the status to `Downloading`; otherwise set
`Downloading` and start (or re-add) the transfer.  No admission check
against `max_concurrent` is performed. -/
def resumeDownload (s : RegState) (id : String) : Except String RegState :=
  match findRow s.rows id with
  | none => .error "Download not found"
  | some r =>
    if r.status = DownloadStatus.Completed then .error "Download already completed"
    else if r.protocol = DownloadProtocol.Http && s.active.contains id then
      .ok ⟨setStatus s.rows id DownloadStatus.Downloading, s.active⟩
    else
      .ok ⟨setStatus s.rows id DownloadStatus.Downloading,
        if s.active.contains id then s.active else s.active ++ [id]⟩

/-- Modelled from the spec: `get_next_queued()` — "oldest `Queued` by
`created_at`" (§4.1).  `db::get_next_queued_download` is called by
`commands.rs / process_queue` but its definition is not among the sources;
rows are kept in creation order, so the oldest queued row is the first one. -/
def nextQueued (rows : List Row) : Option Row :=
  rows.find? (fun r => r.status = DownloadStatus.Queued)

/-- Embeds the promotion loop of `commands.rs / process_queue` (lines
1273-1367): while the active count is below `max_concurrent` and a queued
row exists, set it to `Downloading` and start it (`Video` rows cannot be
queue-started and are marked `Error` instead).  `fuel` bounds the number of
loop iterations of this embedding. -/
def processQueue (maxConcurrent : Nat) : RegState → Nat → RegState
  | s, 0 => s
  | s, fuel + 1 =>
    if s.active.length ≥ maxConcurrent then s
    else
      match nextQueued s.rows with
      | none => s
      | some r =>
        if r.protocol = DownloadProtocol.Video then
          processQueue maxConcurrent ⟨setStatus s.rows r.id DownloadStatus.Error, s.active⟩ fuel
        else
          processQueue maxConcurrent
            ⟨setStatus s.rows r.id DownloadStatus.Downloading, s.active ++ [r.id]⟩ fuel

/-! ## commands.rs: ensure_unique_path

The function takes the requested target path, checks it against the disk and
the registry, and otherwise appends ` (n)` before the extension for the
smallest fitting `n ≥ 1`.  The filesystem state is modelled as the list of
paths existing on disk, the registry check (`db::check_filepath_exists`) as
membership in the list of registry filepaths, and the `Path` component
operations (`file_stem` / `extension` / `parent` / `join`) by taking the
path pre-split into parent, stem and extension. -/

/-- Decimal digit character. -/
def digitChar (n : Nat) : Char := Char.ofNat (48 + n)

/-- Decimal digits of a number, most significant first (`fuel`-bounded
structural version of the usual recursion on `n / 10`). -/
def natToDigitsAux : Nat → Nat → List Char
  | 0, _ => []
  | fuel + 1, n =>
    if n < 10 then [digitChar n]
    else natToDigitsAux fuel (n / 10) ++ [digitChar (n % 10)]

/-- Decimal rendering of a `Nat`, as Rust `format!("{}", n)` produces it. -/
def natStr (n : Nat) : String := ⟨natToDigitsAux (n + 1) n⟩

/-- Rust `Path::join` of a parent directory and a file name. -/
def joinPath (parent name : String) : String :=
  if parent = "" then name else parent ++ "/" ++ name

/-- File name rebuilt from stem and extension (empty extension = none). -/
def renderName (stem extension : String) : String :=
  if extension = "" then stem else stem ++ "." ++ extension

/-- The candidate file name `"{stem} ({n})"` / `"{stem} ({n}).{ext}"` of the
collision loop in `commands.rs / ensure_unique_path`. -/
def candName (stem extension : String) (n : Nat) : String :=
  if extension = "" then stem ++ " (" ++ natStr n ++ ")"
  else stem ++ " (" ++ natStr n ++ ")." ++ extension

/-- The full candidate path for suffix `n`. -/
def candPath (parent stem extension : String) (n : Nat) : String :=
  joinPath parent (candName stem extension n)

/-- A path is free when it exists neither on disk nor in the registry
(`!path.exists() && !exists_in_db`). -/
def isFree (disk db : List String) (p : String) : Bool :=
  !(disk.contains p) && !(db.contains p)

/-- Embeds the `loop` of `commands.rs / ensure_unique_path` starting at
counter `k`: return the first free candidate.  `fuel` bounds the number of
iterations of this embedding; the pigeonhole argument below shows
`disk.length + db.length + 1` iterations always suffice. -/
def uniqueLoop (disk db : List String) (parent stem extension : String) :
    Nat → Nat → Option String
  | 0, _ => none
  | fuel + 1, k =>
    let cand := candPath parent stem extension k
    if isFree disk db cand then some cand
    else uniqueLoop disk db parent stem extension fuel (k + 1)

/-- Embeds `commands.rs / ensure_unique_path` (lines 353-384): return the
path unchanged when it is free, otherwise the first free ` (n)` candidate,
counting from 1. -/
def ensure_unique_path (disk db : List String) (parent stem extension : String) : String :=
  let orig := joinPath parent (renderName stem extension)
  if isFree disk db orig then orig
  else (uniqueLoop disk db parent stem extension (disk.length + db.length + 1) 1).getD orig

/-- N successive admissions of the same requested filename: each admission
resolves a unique path and inserts it into the registry (`insert_download`),
which the next admission's `check_filepath_exists` sees. -/
def admitPaths (disk db : List String) (parent stem extension : String) : Nat → List String
  | 0 => []
  | n + 1 =>
    let p := ensure_unique_path disk db parent stem extension
    p :: admitPaths disk (p :: db) parent stem extension n

/-! ## Theorems -/

/-- C10: the status and protocol string codecs round-trip
(`from_str (as_str x) = x`), and both `from_str` functions are total,
mapping every unrecognized string to `Queued` (respectively `Http`). -/
theorem status_protocol_codecs_roundtrip :
    (∀ s : DownloadStatus, DownloadStatus.from_str s.as_str = s) ∧
    (∀ p : DownloadProtocol, DownloadProtocol.from_str p.as_str = p) ∧
    (∀ str : String, str ≠ "queued" → str ≠ "downloading" → str ≠ "paused" →
      str ≠ "completed" → str ≠ "error" → DownloadStatus.from_str str = DownloadStatus.Queued) ∧
    (∀ str : String, str ≠ "torrent" → str ≠ "video" →
      DownloadProtocol.from_str str = DownloadProtocol.Http) := by
  refine ⟨?_, ?_, ?_, ?_⟩
  · intro s; cases s <;> rfl
  · intro p; cases p <;> rfl
  · intro str h1 h2 h3 h4 h5
    simp [DownloadStatus.from_str, h1, h2, h3, h4, h5]
  · intro str h1 h2
    simp [DownloadProtocol.from_str, h1, h2]

/-- C10 witness: a corrupted status column value re-queues the download. -/
theorem status_protocol_codecs_roundtrip_witness :
    DownloadStatus.from_str "garbage" = DownloadStatus.Queued ∧
    DownloadProtocol.from_str "garbage" = DownloadProtocol.Http :=
  ⟨status_protocol_codecs_roundtrip.2.2.1 "garbage" (by decide) (by decide) (by decide)
      (by decide) (by decide),
    status_protocol_codecs_roundtrip.2.2.2 "garbage" (by decide) (by decide)⟩

/-- C9 counterexample: `"a.b\tc"` contains a tab, so the claim (no whitespace
anywhere) rejects it, but `is_valid_url` accepts it — the code only excludes
the space character. -/
theorem is_valid_url_claim_counterexample :
    is_valid_url "a.b\tc" = true ∧ claimValidUrl "a.b\tc".toList = false := by
  decide

/-- C9 amended: `is_valid_url` accepts exactly the strings that start with
`http://`, `https://` or `magnet:` case-insensitively, or that contain `.`
with no space character and byte length greater than 3. -/
theorem is_valid_url_amended_characterization :
    ∀ url : String, is_valid_url url = amendedValidUrl url.toList := by
  have hgen : ∀ a b : Bool,
      (if a = true then true else if b = true then true else false) = (a || b) := by decide
  intro url
  simp only [is_valid_url, isValidUrlL, amendedValidUrl]
  exact hgen _ _

/-- C8: when the rate limiter was constructed with `limit = 0`, `acquire`
returns immediately for every amount, cancellation flag, refill history,
token count and iteration bound: the token count is unchanged and no 10 ms
sleep is performed. -/
theorem acquire_zero_limit_disabled :
    ∀ (amount : Nat) (cancel : Nat → Bool) (refill : Nat → Nat) (tokens fuel : Nat),
      acquire 0 amount cancel refill tokens fuel = (tokens, 0) := by
  intros; rfl

/-- C5: the dispatch loop's target worker count is **not**
`min(connections, max(1, speed_limit / 524288))` for every `speed_limit > 0`:
the `as u8` cast truncates the quotient modulo 256, so at
`speed_limit = 256 · 524288 = 134217728` with `connections = 2` the code
computes target 1 while the claimed formula gives 2.  In the untruncated
range and at `speed_limit = 0` the code matches the claim. -/
theorem targetWorkers_u8_truncation :
    targetWorkers 2 134217728 = 1 ∧
    Nat.min 2 (Nat.max 1 (134217728 / 524288)) = 2 ∧
    targetWorkers 2 0 = 2 ∧
    targetWorkers 2 524288 = 1 ∧
    targetWorkers 2 (4 * 524288) = 2 := by
  decide

/-- C4 counterexample: in single-stream mode a `text/html` response is
refused even though the URL host is not Google Drive, contradicting the
claim that only Drive URLs are refused there. -/
theorem single_stream_html_counterexample :
    containsSub "https://example.com/file.zip" "drive.google.com" = false ∧
    singleResponseCheck "text/html" =
      Except.error (DownloadError.Network
        "Server returned a webpage instead of a file. Login may be required.") := by
  exact ⟨by decide, rfl⟩

/-- C4 amended: in single-stream mode an HTML response fails the download
for every host (the URL is not consulted); the Drive-host restriction of the
HTML refusal exists only in the chunked worker protocol. -/
theorem html_refusal_amended :
    (∀ contentType : String,
      singleResponseCheck contentType = Except.ok () ↔
        containsSub contentType "text/html" = false) ∧
    (∀ (url contentType : String) (status : Nat),
      workerResponseCheck url status contentType = Except.ok () ↔
        status ≠ 429 ∧ status ≠ 503 ∧ statusIsSuccess status = true ∧
          ¬(containsSub contentType "text/html" = true ∧
            containsSub url "drive.google.com" = true)) := by
  constructor
  · intro ct
    cases h : containsSub ct "text/html" <;> simp [singleResponseCheck, h]
  · intro url ct status
    by_cases h1 : status = 429
    · simp [workerResponseCheck, h1]
    · by_cases h2 : status = 503
      · simp [workerResponseCheck, h1, h2]
      · cases h3 : statusIsSuccess status
        · simp [workerResponseCheck, h1, h2, h3]
        · cases h4 : containsSub ct "text/html"
          · simp [workerResponseCheck, h1, h2, h3, h4]
          · cases h5 : containsSub url "drive.google.com"
            · simp [workerResponseCheck, h1, h2, h3, h4, h5]
            · simp [workerResponseCheck, h1, h2, h3, h4, h5]

/-- C4 witness: a non-HTML response passes both response checks. -/
theorem html_refusal_amended_witness :
    singleResponseCheck "application/zip" = Except.ok () ∧
    workerResponseCheck "https://example.com/f.zip" 200 "application/zip" = Except.ok () :=
  ⟨(html_refusal_amended.1 "application/zip").mpr (by decide),
    (html_refusal_amended.2 "https://example.com/f.zip" "application/zip" 200).mpr
      ⟨by decide, by decide, by decide, by decide⟩⟩

/-- C1: at `total_size = 1` with `connections = 2` (any `total_size` below
`8 × connections` behaves alike) the integer division makes
`chunk_size = 0` and the `u64` expression `(i + 1) * chunk_size - 1`
wraps to `2^64 - 1`, so the planned chunks are fifteen copies of
`[0, 2^64 - 1]` plus `[0, 0]` — not a partition of `[0, 1)`.  For sizes
where `chunk_size ≥ 1` the plan is a partition with every chunk at most
10 MiB, as the 168 MiB instance shows. -/
theorem planChunks_tiny_size_not_partition :
    planChunks 2 1 = List.replicate 15 ⟨0, 2 ^ 64 - 1⟩ ++ [⟨0, 0⟩] ∧
    isPartitionB (planChunks 2 1) 1 = false ∧
    isPartitionB (planChunks 2 (168 * 1024 * 1024)) (168 * 1024 * 1024) = true ∧
    (planChunks 2 (168 * 1024 * 1024)).length = 32 ∧
    (planChunks 2 (168 * 1024 * 1024)).all
      (fun c => c.stop + 1 - c.start ≤ maxChunkLen) = true := by
  decide

/-- C7: a bare 40-hex string is accepted directly and lower-cased; the hex
magnet of the claim yields its info hash verbatim; the 32-character base32
token decodes to the equivalent 40-character hex string. -/
theorem extract_info_hash_spec :
    (∀ h : List Char, h.length = 40 → h.all isHexDigitA = true →
      extractInfoHashL h = some (h.map asciiLowerChar)) ∧
    extract_info_hash_from_magnet
        "magnet:?xt=urn:btih:c12fe1c06bba254a9dc9f519b335aa7c1367a88a&dn=x" =
      some "c12fe1c06bba254a9dc9f519b335aa7c1367a88a" ∧
    extract_info_hash_from_magnet
        "magnet:?xt=urn:btih:MFRGGZDFMZTWQ2LKNNWG23TPOBYXE43V&dn=x" =
      some "6162636465666768696a6b6c6d6e6f7071727375" ∧
    ("6162636465666768696a6b6c6d6e6f7071727375" : String).length = 40 := by
  refine ⟨?_, by decide, by decide, by decide⟩
  intro h h1 h2
  unfold extractInfoHashL
  rw [if_pos ⟨h1, h2⟩]

/-- C7 witness: a concrete upper-case bare 40-hex string is accepted and
lower-cased. -/
theorem extract_info_hash_spec_witness :
    extractInfoHashL "C12FE1C06BBA254A9DC9F519B335AA7C1367A88A".toList =
      some "c12fe1c06bba254a9dc9f519b335aa7c1367a88a".toList :=
  (extract_info_hash_spec.1 _ (by decide) (by decide)).trans (by decide)

/-! ### Registry helper lemmas -/

theorem setStatus_map_id (rows : List Row) (id : String) (st : DownloadStatus) :
    (setStatus rows id st).map Row.id = rows.map Row.id := by
  induction rows with
  | nil => rfl
  | cons r t ih =>
    simp only [setStatus, List.map_cons] at *
    refine congrArg₂ List.cons ?_ ih
    by_cases hr : r.id = id <;> simp [hr]

theorem setStatus_of_not_mem (rows : List Row) (id : String) (st : DownloadStatus)
    (h : id ∉ rows.map Row.id) : setStatus rows id st = rows := by
  induction rows with
  | nil => rfl
  | cons r t ih =>
    simp only [List.map_cons, List.mem_cons] at h
    push_neg at h
    simp only [setStatus, List.map_cons]
    rw [if_neg (fun hc => h.1 hc.symm)]
    exact congrArg _ (ih h.2)

theorem findRow_cons (r : Row) (t : List Row) (id : String) :
    findRow (r :: t) id = if r.id = id then some r else findRow t id := by
  by_cases h : r.id = id
  · rw [if_pos h]
    exact List.find?_cons_of_pos _ (by simpa using h)
  · rw [if_neg h]
    exact List.find?_cons_of_neg _ (by simpa using h)

theorem setStatus_cons (a : Row) (t : List Row) (id : String) (st : DownloadStatus) :
    setStatus (a :: t) id st
      = (if a.id = id then { a with status := st } else a) :: setStatus t id st := rfl

theorem countDownloading_cons (r : Row) (t : List Row) :
    countDownloading (r :: t)
      = (if r.status = DownloadStatus.Downloading then 1 else 0) + countDownloading t := by
  simp only [countDownloading, List.filter_cons]
  by_cases h : r.status = DownloadStatus.Downloading
  · simp [h]
    omega
  · simp [h]

theorem countDownloading_setStatus (rows : List Row) (id : String) (st : DownloadStatus)
    (r : Row) (hfind : findRow rows id = some r) (hnodup : (rows.map Row.id).Nodup) :
    countDownloading (setStatus rows id st)
        + (if r.status = DownloadStatus.Downloading then 1 else 0)
      = countDownloading rows + (if st = DownloadStatus.Downloading then 1 else 0) := by
  induction rows with
  | nil => simp [findRow] at hfind
  | cons a t ih =>
    rw [findRow_cons] at hfind
    simp only [List.map_cons, List.nodup_cons] at hnodup
    by_cases ha : a.id = id
    · rw [if_pos ha] at hfind
      injection hfind with hra
      subst hra
      have ht : setStatus t id st = t := setStatus_of_not_mem t id st (ha ▸ hnodup.1)
      rw [setStatus_cons, if_pos ha, ht, countDownloading_cons, countDownloading_cons]
      by_cases h1 : a.status = DownloadStatus.Downloading <;>
        by_cases h2 : st = DownloadStatus.Downloading <;> simp [h1, h2] <;> omega
    · rw [if_neg ha] at hfind
      have hih := ih hfind hnodup.2
      rw [setStatus_cons, if_neg ha, countDownloading_cons, countDownloading_cons]
      omega

theorem countDownloading_append (rows : List Row) (r : Row) :
    countDownloading (rows ++ [r])
      = countDownloading rows + (if r.status = DownloadStatus.Downloading then 1 else 0) := by
  simp only [countDownloading, List.filter_append]
  by_cases h : r.status = DownloadStatus.Downloading <;> simp [h]

theorem findRow_of_mem_nodup (rows : List Row) (r : Row)
    (hnodup : (rows.map Row.id).Nodup) (hmem : r ∈ rows) : findRow rows r.id = some r := by
  induction rows with
  | nil => cases hmem
  | cons a t ih =>
    simp only [List.map_cons, List.nodup_cons] at hnodup
    rcases List.mem_cons.mp hmem with h | h
    · rw [findRow_cons, if_pos (by rw [h])]
      rw [h]
    · have hne : a.id ≠ r.id := fun hc => hnodup.1 (hc ▸ List.mem_map_of_mem Row.id h)
      rw [findRow_cons, if_neg hne]
      exact ih hnodup.2 h

theorem nextQueued_props (rows : List Row) (r : Row)
    (hnodup : (rows.map Row.id).Nodup) (h : nextQueued rows = some r) :
    r.status = DownloadStatus.Queued ∧ findRow rows r.id = some r := by
  have h1 := List.find?_some h
  have h2 := List.mem_of_find?_eq_some h
  simp only [decide_eq_true_eq] at h1
  exact ⟨h1, findRow_of_mem_nodup rows r hnodup h2⟩

theorem statusOf_setStatus_ne (rows : List Row) (i j : String) (st : DownloadStatus)
    (h : j ≠ i) : statusOf (setStatus rows j st) i = statusOf rows i := by
  induction rows with
  | nil => rfl
  | cons a t ih =>
    simp only [statusOf] at *
    rw [setStatus_cons, findRow_cons, findRow_cons]
    by_cases ha : a.id = j
    · have hne : a.id ≠ i := by rw [ha]; exact h
      rw [if_pos ha]
      rw [if_neg (show ({ a with status := st } : Row).id ≠ i from hne), if_neg hne]
      exact ih
    · rw [if_neg ha]
      by_cases hai : a.id = i
      · rw [if_pos hai, if_pos hai]
      · rw [if_neg hai, if_neg hai]
        exact ih

theorem findRow_setStatus_self (rows : List Row) (id : String) (st : DownloadStatus)
    (r : Row) (hfind : findRow rows id = some r) :
    findRow (setStatus rows id st) id = some { r with status := st } := by
  induction rows with
  | nil => simp [findRow] at hfind
  | cons a t ih =>
    rw [findRow_cons] at hfind
    simp only [setStatus, List.map_cons]
    by_cases ha : a.id = id
    · rw [if_pos ha] at hfind
      cases hfind
      rw [if_pos ha, findRow_cons, if_pos (by simpa using ha)]
    · rw [if_neg ha] at hfind
      rw [if_neg ha, findRow_cons, if_neg ha]
      exact ih hfind

theorem statusOf_setStatus_self (rows : List Row) (id : String) (st : DownloadStatus)
    (r : Row) (hfind : findRow rows id = some r) :
    statusOf (setStatus rows id st) id = some st := by
  simp [statusOf, findRow_setStatus_self rows id st r hfind]

theorem processQueue_succ (maxC n : Nat) (s : RegState) :
    processQueue maxC s (n + 1)
      = if s.active.length ≥ maxC then s
        else
          match nextQueued s.rows with
          | none => s
          | some r =>
            if r.protocol = DownloadProtocol.Video then
              processQueue maxC ⟨setStatus s.rows r.id DownloadStatus.Error, s.active⟩ n
            else
              processQueue maxC
                ⟨setStatus s.rows r.id DownloadStatus.Downloading, s.active ++ [r.id]⟩ n := rfl

theorem processQueue_untouched (maxC : Nat) :
    ∀ (fuel : Nat) (s : RegState) (id : String), (s.rows.map Row.id).Nodup →
      statusOf s.rows id ≠ some DownloadStatus.Queued →
      statusOf (processQueue maxC s fuel).rows id = statusOf s.rows id := by
  intro fuel
  induction fuel with
  | zero => intro s id _ _; rfl
  | succ n ih =>
    intro s id hn hq
    rw [processQueue_succ]
    by_cases hge : s.active.length ≥ maxC
    · rw [if_pos hge]
    · rw [if_neg hge]
      cases hnq : nextQueued s.rows with
      | none => rfl
      | some r =>
        dsimp only
        obtain ⟨hst, hfind⟩ := nextQueued_props s.rows r hn hnq
        have hne : r.id ≠ id := by
          intro hc
          exact hq (by rw [← hc]; simp [statusOf, hfind, hst])
        have hmap : ∀ st, ((setStatus s.rows r.id st).map Row.id).Nodup := by
          intro st; rw [setStatus_map_id]; exact hn
        have huntouched : ∀ st, statusOf (setStatus s.rows r.id st) id = statusOf s.rows id :=
          fun st => statusOf_setStatus_ne s.rows id r.id st hne
        by_cases hv : r.protocol = DownloadProtocol.Video
        · rw [if_pos hv]
          rw [ih _ id (hmap _) (by rw [huntouched]; exact hq)]
          exact huntouched _
        · rw [if_neg hv]
          rw [ih _ id (hmap _) (by rw [huntouched]; exact hq)]
          exact huntouched _

/-- C2 counterexample: with `max_concurrent = 1` and one row already
`Downloading`, `resume_download` of a `Paused` row produces two
`Downloading` rows — the operation performs no admission check, so it does
not preserve the bound. -/
theorem resume_exceeds_max_concurrent :
    downloadingCount ⟨[⟨"a", .Downloading, .Http⟩, ⟨"b", .Paused, .Http⟩], ["a"]⟩ = 1 ∧
    resumeDownload ⟨[⟨"a", .Downloading, .Http⟩, ⟨"b", .Paused, .Http⟩], ["a"]⟩ "b" =
      .ok ⟨[⟨"a", .Downloading, .Http⟩, ⟨"b", .Downloading, .Http⟩], ["a", "b"]⟩ ∧
    downloadingCount ⟨[⟨"a", .Downloading, .Http⟩, ⟨"b", .Downloading, .Http⟩], ["a", "b"]⟩ = 2 ∧
    ¬(2 ≤ 1) := by
  refine ⟨by decide, rfl, by decide, by decide⟩

/-- C2 amended: `add_download` admission and `process_queue` promotion do
preserve `|{row : status = Downloading}| ≤ max_concurrent` (whenever the
active-task count dominates the `Downloading` row count, which the engine
maintains); `resume_download` checks nothing and can exceed the bound, as
the counterexample shows. -/
theorem concurrency_admission_amended :
    (∀ (s : RegState) (maxC : Nat) (newId : String) (proto : DownloadProtocol) (sp : Bool),
      countDownloading s.rows ≤ s.active.length → countDownloading s.rows ≤ maxC →
      countDownloading (addDownload s maxC newId proto sp).rows ≤ maxC) ∧
    (∀ (maxC fuel : Nat) (s : RegState),
      (s.rows.map Row.id).Nodup → countDownloading s.rows ≤ s.active.length →
      countDownloading s.rows ≤ maxC →
      countDownloading (processQueue maxC s fuel).rows ≤ maxC) := by
  constructor
  · intro s maxC newId proto sp hca hb
    cases sp with
    | true => simpa [addDownload, countDownloading_append] using hb
    | false =>
      by_cases hq : s.active.length ≥ maxC
      · have heq : addDownload s maxC newId proto false
            = ⟨s.rows ++ [⟨newId, DownloadStatus.Queued, proto⟩], s.active⟩ := by
          simp [addDownload, hq]
        rw [heq]
        show countDownloading (s.rows ++ [⟨newId, DownloadStatus.Queued, proto⟩]) ≤ maxC
        rw [countDownloading_append]
        simpa using hb
      · have heq : addDownload s maxC newId proto false
            = ⟨s.rows ++ [⟨newId, DownloadStatus.Downloading, proto⟩], s.active ++ [newId]⟩ := by
          simp [addDownload, hq]
        rw [heq]
        show countDownloading (s.rows ++ [⟨newId, DownloadStatus.Downloading, proto⟩]) ≤ maxC
        rw [countDownloading_append]
        simp
        omega
  · intro maxC fuel
    induction fuel with
    | zero => intro s _ _ hb; exact hb
    | succ n ih =>
      intro s hn hca hb
      rw [processQueue_succ]
      by_cases hge : s.active.length ≥ maxC
      · rw [if_pos hge]; exact hb
      · rw [if_neg hge]
        cases hnq : nextQueued s.rows with
        | none => exact hb
        | some r =>
          dsimp only
          obtain ⟨hst, hfind⟩ := nextQueued_props s.rows r hn hnq
          have hlen : (s.active ++ [r.id]).length = s.active.length + 1 := by simp
          by_cases hv : r.protocol = DownloadProtocol.Video
          · rw [if_pos hv]
            apply ih
            · dsimp only; rw [setStatus_map_id]; exact hn
            · dsimp only
              have := countDownloading_setStatus s.rows r.id DownloadStatus.Error r hfind hn
              simp [hst] at this
              omega
            · dsimp only
              have := countDownloading_setStatus s.rows r.id DownloadStatus.Error r hfind hn
              simp [hst] at this
              omega
          · rw [if_neg hv]
            apply ih
            · dsimp only; rw [setStatus_map_id]; exact hn
            · dsimp only
              have := countDownloading_setStatus s.rows r.id DownloadStatus.Downloading r hfind hn
              simp [hst] at this
              rw [hlen]
              omega
            · dsimp only
              have := countDownloading_setStatus s.rows r.id DownloadStatus.Downloading r hfind hn
              simp [hst] at this
              omega

/-- C2 witness: promoting from a two-element queue under
`max_concurrent = 1` keeps at most one row `Downloading`. -/
theorem concurrency_admission_amended_witness :
    countDownloading (processQueue 1
      ⟨[⟨"a", .Queued, .Http⟩, ⟨"b", .Queued, .Http⟩], []⟩ 5).rows ≤ 1 :=
  concurrency_admission_amended.2 1 5 _ (by decide) (by decide) (by decide)

/-- C3 counterexample: `pause_download` of a `Completed` row succeeds and
sets the row to `Paused`, so `Completed` is not terminal — contradicting
the claim that no operation moves a `Completed` row. -/
theorem pause_completed_counterexample :
    pauseDownload ⟨[⟨"a", .Completed, .Http⟩], []⟩ "a" =
      .ok ⟨[⟨"a", .Paused, .Http⟩], []⟩ := rfl

/-- C3 amended: `resume_download` refuses `Completed` rows with
`AlreadyCompleted` and otherwise moves the row to `Downloading`
(covering the start, resume and user-retry edges); queue promotion moves
rows only from `Queued`, to `Downloading` (or `Error` for unstartable
protocols); but `pause_download` sets `Paused` unconditionally on any
existing row, so `Completed → Paused` (and `Error → Paused`) are reachable
and `Completed` is terminal only for `resume_download`. -/
theorem lifecycle_edges_amended :
    (∀ (s : RegState) (id : String) (r : Row), findRow s.rows id = some r →
      r.status = DownloadStatus.Completed →
      resumeDownload s id = .error "Download already completed") ∧
    (∀ (s : RegState) (id : String) (r : Row), findRow s.rows id = some r →
      r.status ≠ DownloadStatus.Completed → ∃ s', resumeDownload s id = .ok s' ∧
        statusOf s'.rows id = some DownloadStatus.Downloading) ∧
    (∀ (s : RegState) (id : String) (r : Row), findRow s.rows id = some r →
      ∃ s', pauseDownload s id = .ok s' ∧
        statusOf s'.rows id = some DownloadStatus.Paused) ∧
    (∀ (maxC fuel : Nat) (s : RegState) (id : String), (s.rows.map Row.id).Nodup →
      statusOf (processQueue maxC s fuel).rows id ≠ statusOf s.rows id →
      statusOf s.rows id = some DownloadStatus.Queued ∧
        (statusOf (processQueue maxC s fuel).rows id = some DownloadStatus.Downloading ∨
          statusOf (processQueue maxC s fuel).rows id = some DownloadStatus.Error)) := by
  refine ⟨?_, ?_, ?_, ?_⟩
  · intro s id r hfind hc
    simp [resumeDownload, hfind, hc]
  · intro s id r hfind hc
    simp only [resumeDownload, hfind]
    rw [if_neg hc]
    by_cases hh : r.protocol = DownloadProtocol.Http && s.active.contains id
    · refine ⟨_, by rw [if_pos hh], ?_⟩
      exact statusOf_setStatus_self s.rows id _ r hfind
    · refine ⟨_, by rw [if_neg hh], ?_⟩
      exact statusOf_setStatus_self s.rows id _ r hfind
  · intro s id r hfind
    refine ⟨⟨setStatus s.rows id DownloadStatus.Paused, s.active.filter (· ≠ id)⟩, ?_, ?_⟩
    · simp [pauseDownload, hfind]
    · exact statusOf_setStatus_self s.rows id _ r hfind
  · intro maxC fuel
    induction fuel with
    | zero => intro s id _ hch; exact absurd rfl hch
    | succ n ih =>
      intro s id hn hch
      rw [processQueue_succ] at hch ⊢
      by_cases hge : s.active.length ≥ maxC
      · rw [if_pos hge] at hch
        exact absurd rfl hch
      · rw [if_neg hge] at hch ⊢
        cases hnq : nextQueued s.rows with
        | none =>
          rw [hnq] at hch
          exact absurd rfl hch
        | some r =>
          rw [hnq] at hch
          dsimp only at hch ⊢
          obtain ⟨hst, hfind⟩ := nextQueued_props s.rows r hn hnq
          have hnodup' : ∀ st, ((setStatus s.rows r.id st).map Row.id).Nodup := by
            intro st; rw [setStatus_map_id]; exact hn
          by_cases hid : r.id = id
          · subst hid
            have horig : statusOf s.rows r.id = some DownloadStatus.Queued := by
              simp [statusOf, hfind, hst]
            refine ⟨horig, ?_⟩
            by_cases hv : r.protocol = DownloadProtocol.Video
            · rw [if_pos hv]
              right
              rw [processQueue_untouched maxC n _ r.id (hnodup' _)
                (by rw [statusOf_setStatus_self s.rows r.id _ r hfind]; simp)]
              exact statusOf_setStatus_self s.rows r.id _ r hfind
            · rw [if_neg hv]
              left
              rw [processQueue_untouched maxC n _ r.id (hnodup' _)
                (by rw [statusOf_setStatus_self s.rows r.id _ r hfind]; simp)]
              exact statusOf_setStatus_self s.rows r.id _ r hfind
          · have huntouched : ∀ st, statusOf (setStatus s.rows r.id st) id = statusOf s.rows id :=
              fun st => statusOf_setStatus_ne s.rows id r.id st hid
            by_cases hv : r.protocol = DownloadProtocol.Video
            · rw [if_pos hv] at hch ⊢
              have := ih ⟨setStatus s.rows r.id DownloadStatus.Error, s.active⟩ id
                (hnodup' _) (by rw [huntouched]; exact hch)
              rw [huntouched] at this
              exact this
            · rw [if_neg hv] at hch ⊢
              have := ih ⟨setStatus s.rows r.id DownloadStatus.Downloading, s.active ++ [r.id]⟩ id
                (hnodup' _) (by rw [huntouched]; exact hch)
              rw [huntouched] at this
              exact this

/-- C3 witness: resuming a `Paused` row yields `Downloading`, and pausing a
`Queued` row yields `Paused`. -/
theorem lifecycle_edges_amended_witness :
    (∃ s', resumeDownload ⟨[⟨"a", .Paused, .Http⟩], []⟩ "a" = .ok s' ∧
      statusOf s'.rows "a" = some DownloadStatus.Downloading) ∧
    (∃ s', pauseDownload ⟨[⟨"b", .Queued, .Http⟩], []⟩ "b" = .ok s' ∧
      statusOf s'.rows "b" = some DownloadStatus.Paused) :=
  ⟨lifecycle_edges_amended.2.1 _ "a" ⟨"a", .Paused, .Http⟩ (by decide) (by decide),
    lifecycle_edges_amended.2.2.1 _ "b" ⟨"b", .Queued, .Http⟩ (by decide)⟩

/-! ### Unique-path helper lemmas -/

theorem foldl_natToDigitsAux (fuel : Nat) :
    ∀ (n acc : Nat), n < fuel →
      (natToDigitsAux fuel n).foldl (fun a c => a * 10 + (c.toNat - 48)) acc
        = acc * 10 ^ (natToDigitsAux fuel n).length + n := by
  induction fuel with
  | zero => intro n acc h; exact absurd h (Nat.not_lt_zero n)
  | succ f ih =>
    intro n acc h
    have hdig : ∀ m, m < 10 → (digitChar m).toNat - 48 = m := by decide
    by_cases h10 : n < 10
    · rw [show natToDigitsAux (f + 1) n = [digitChar n] from by simp [natToDigitsAux, h10]]
      simp only [List.foldl_cons, List.foldl_nil, List.length_cons, List.length_nil,
        pow_one, zero_add]
      rw [hdig n h10]
    · rw [show natToDigitsAux (f + 1) n
          = natToDigitsAux f (n / 10) ++ [digitChar (n % 10)] from by
        simp [natToDigitsAux, h10]]
      have hdiv : n / 10 < f := by
        have h1 : n / 10 < n := Nat.div_lt_self (by omega) (by omega)
        omega
      rw [List.foldl_append, ih (n / 10) acc hdiv]
      simp only [List.foldl_cons, List.foldl_nil, List.length_append, List.length_cons,
        List.length_nil, zero_add]
      rw [hdig _ (Nat.mod_lt n (by omega))]
      rw [pow_succ]
      have hmod := Nat.div_add_mod n 10
      generalize (10 : Nat) ^ (natToDigitsAux f (n / 10)).length = X
      ring_nf
      omega

theorem natStr_inj (m n : Nat) (h : natStr m = natStr n) : m = n := by
  have hm := foldl_natToDigitsAux (m + 1) m 0 (Nat.lt_succ_self m)
  have hn := foldl_natToDigitsAux (n + 1) n 0 (Nat.lt_succ_self n)
  have hdata : natToDigitsAux (m + 1) m = natToDigitsAux (n + 1) n := congrArg String.data h
  rw [hdata] at hm
  omega

theorem candName_inj (stem extension : String) (m n : Nat)
    (h : candName stem extension m = candName stem extension n) : m = n := by
  unfold candName at h
  by_cases he : extension = ""
  · rw [if_pos he, if_pos he] at h
    have hd := congrArg String.data h
    simp only [String.data_append, List.append_assoc] at hd
    have h1 := List.append_cancel_left hd
    have h2 := List.append_cancel_left h1
    have h3 := List.append_cancel_right h2
    exact natStr_inj m n (String.ext h3)
  · rw [if_neg he, if_neg he] at h
    have hd := congrArg String.data h
    simp only [String.data_append, List.append_assoc] at hd
    have h1 := List.append_cancel_left hd
    have h2 := List.append_cancel_left h1
    have h3 := List.append_cancel_right h2
    exact natStr_inj m n (String.ext h3)

theorem candPath_inj (parent stem extension : String) (m n : Nat)
    (h : candPath parent stem extension m = candPath parent stem extension n) : m = n := by
  unfold candPath joinPath at h
  by_cases hp : parent = ""
  · rw [if_pos hp, if_pos hp] at h
    exact candName_inj stem extension m n h
  · rw [if_neg hp, if_neg hp] at h
    have hd := congrArg String.data h
    simp only [String.data_append, List.append_assoc] at hd
    have h1 := List.append_cancel_left hd
    have h2 := List.append_cancel_left h1
    exact candName_inj stem extension m n (String.ext h2)

theorem isFree_not_mem {disk db : List String} {p : String} (h : isFree disk db p = true) :
    p ∉ disk ∧ p ∉ db := by
  simp only [isFree, Bool.and_eq_true, Bool.not_eq_true'] at h
  constructor
  · intro hmem
    have he : List.elem p disk = true := List.elem_iff.mpr hmem
    have : disk.contains p = true := he
    rw [h.1] at this
    cases this
  · intro hmem
    have he : List.elem p db = true := List.elem_iff.mpr hmem
    have : db.contains p = true := he
    rw [h.2] at this
    cases this

theorem exists_free_candidate (disk db : List String) (parent stem extension : String) :
    ∃ n, 1 ≤ n ∧ n ≤ disk.length + db.length + 1 ∧
      isFree disk db (candPath parent stem extension n) = true := by
  by_contra hcon
  push_neg at hcon
  have hmem : ∀ n ∈ Finset.Icc 1 (disk.length + db.length + 1),
      candPath parent stem extension n ∈ disk ++ db := by
    intro n hn
    rw [Finset.mem_Icc] at hn
    have hne := hcon n hn.1 hn.2
    rw [List.mem_append]
    by_cases h1 : disk.contains (candPath parent stem extension n) = true
    · exact Or.inl (List.elem_iff.mp h1)
    · have h1' : disk.contains (candPath parent stem extension n) = false := by
        revert h1; cases disk.contains (candPath parent stem extension n) <;> simp
      have h2 : db.contains (candPath parent stem extension n) = true := by
        revert hne
        rw [isFree, h1']
        cases db.contains (candPath parent stem extension n) <;> simp
      exact Or.inr (List.elem_iff.mp h2)
  have hinj : Set.InjOn (candPath parent stem extension)
      ↑(Finset.Icc 1 (disk.length + db.length + 1)) :=
    fun a _ b _ hab => candPath_inj parent stem extension a b hab
  have hsub : (Finset.Icc 1 (disk.length + db.length + 1)).image
      (candPath parent stem extension) ⊆ (disk ++ db).toFinset := by
    intro x hx
    rw [Finset.mem_image] at hx
    obtain ⟨n, hn, rfl⟩ := hx
    rw [List.mem_toFinset]
    exact hmem n hn
  have h1 : ((Finset.Icc 1 (disk.length + db.length + 1)).image
      (candPath parent stem extension)).card = disk.length + db.length + 1 := by
    rw [Finset.card_image_of_injOn hinj, Nat.card_Icc]
    omega
  have h2 := Finset.card_le_card hsub
  have h3 : (disk ++ db).toFinset.card ≤ (disk ++ db).length :=
    List.toFinset_card_le (disk ++ db)
  rw [h1] at h2
  rw [List.length_append] at h3
  omega

theorem uniqueLoop_finds (disk db : List String) (parent stem extension : String) :
    ∀ (fuel k : Nat),
      (∃ n, k ≤ n ∧ n < k + fuel ∧ isFree disk db (candPath parent stem extension n) = true) →
      ∃ m, k ≤ m ∧ isFree disk db (candPath parent stem extension m) = true ∧
        (∀ j, k ≤ j → j < m → isFree disk db (candPath parent stem extension j) = false) ∧
        uniqueLoop disk db parent stem extension fuel k
          = some (candPath parent stem extension m) := by
  intro fuel
  induction fuel with
  | zero =>
    intro k h
    obtain ⟨n, h1, h2, _⟩ := h
    exact absurd h2 (by omega)
  | succ f ih =>
    intro k h
    by_cases hf : isFree disk db (candPath parent stem extension k) = true
    · refine ⟨k, Nat.le_refl k, hf, ?_, ?_⟩
      · intro j hj1 hj2
        exact absurd (Nat.lt_of_le_of_lt hj1 hj2) (Nat.lt_irrefl k)
      · simp [uniqueLoop, hf]
    · have hf' : isFree disk db (candPath parent stem extension k) = false := by
        revert hf; cases isFree disk db (candPath parent stem extension k) <;> simp
      obtain ⟨n, h1, h2, h3⟩ := h
      have hex : ∃ n, k + 1 ≤ n ∧ n < (k + 1) + f ∧
          isFree disk db (candPath parent stem extension n) = true := by
        refine ⟨n, ?_, by omega, h3⟩
        rcases Nat.eq_or_lt_of_le h1 with hc | hc
        · rw [← hc] at h3
          rw [hf'] at h3
          cases h3
        · omega
      obtain ⟨m, hm1, hm2, hm3, hm4⟩ := ih (k + 1) hex
      refine ⟨m, by omega, hm2, ?_, ?_⟩
      · intro j hj1 hj2
        by_cases hjk : j = k
        · rw [hjk]; exact hf'
        · exact hm3 j (by omega) hj2
      · rw [show uniqueLoop disk db parent stem extension (f + 1) k
            = uniqueLoop disk db parent stem extension f (k + 1) from by
          simp [uniqueLoop, hf']]
        exact hm4

theorem ensure_unique_path_cases (disk db : List String) (parent stem extension : String)
    (hfree : isFree disk db (joinPath parent (renderName stem extension)) = false) :
    ∃ n, 1 ≤ n ∧
      ensure_unique_path disk db parent stem extension = candPath parent stem extension n ∧
      isFree disk db (candPath parent stem extension n) = true ∧
      ∀ m, 1 ≤ m → m < n → isFree disk db (candPath parent stem extension m) = false := by
  obtain ⟨n, hn1, hn2, hn3⟩ := exists_free_candidate disk db parent stem extension
  have hex : ∃ n', 1 ≤ n' ∧ n' < 1 + (disk.length + db.length + 1) ∧
      isFree disk db (candPath parent stem extension n') = true := ⟨n, hn1, by omega, hn3⟩
  obtain ⟨m, hm1, hm2, hm3, hm4⟩ :=
    uniqueLoop_finds disk db parent stem extension (disk.length + db.length + 1) 1 hex
  refine ⟨m, hm1, ?_, hm2, hm3⟩
  simp [ensure_unique_path, hfree, hm4]

theorem ensure_unique_path_not_mem (disk db : List String) (parent stem extension : String) :
    ensure_unique_path disk db parent stem extension ∉ disk ∧
    ensure_unique_path disk db parent stem extension ∉ db := by
  by_cases hfree : isFree disk db (joinPath parent (renderName stem extension)) = true
  · rw [show ensure_unique_path disk db parent stem extension
        = joinPath parent (renderName stem extension) from by simp [ensure_unique_path, hfree]]
    exact isFree_not_mem hfree
  · have hfree' : isFree disk db (joinPath parent (renderName stem extension)) = false := by
      revert hfree; cases isFree disk db (joinPath parent (renderName stem extension)) <;> simp
    obtain ⟨m, _, hE, hfreem, _⟩ := ensure_unique_path_cases disk db parent stem extension hfree'
    rw [hE]
    exact isFree_not_mem hfreem

theorem admitPaths_not_mem (disk : List String) (parent stem extension : String) :
    ∀ (N : Nat) (db : List String), ∀ q ∈ admitPaths disk db parent stem extension N, q ∉ db := by
  intro N
  induction N with
  | zero => intro db q hq; simp [admitPaths] at hq
  | succ n ih =>
    intro db q hq
    simp only [admitPaths, List.mem_cons] at hq
    rcases hq with hq | hq
    · rw [hq]
      exact (ensure_unique_path_not_mem disk db parent stem extension).2
    · intro hmem
      exact ih (ensure_unique_path disk db parent stem extension :: db) q hq
        (List.mem_cons_of_mem _ hmem)

theorem admitPaths_nodup (disk : List String) (parent stem extension : String) :
    ∀ (N : Nat) (db : List String), (admitPaths disk db parent stem extension N).Nodup := by
  intro N
  induction N with
  | zero => intro db; simp [admitPaths]
  | succ n ih =>
    intro db
    rw [show admitPaths disk db parent stem extension (n + 1)
        = ensure_unique_path disk db parent stem extension
          :: admitPaths disk (ensure_unique_path disk db parent stem extension :: db)
            parent stem extension n from rfl]
    rw [List.nodup_cons]
    constructor
    · intro hmem
      exact admitPaths_not_mem disk parent stem extension n
        (ensure_unique_path disk db parent stem extension :: db) _ hmem
        (List.mem_cons_self _ _)
    · exact ih (ensure_unique_path disk db parent stem extension :: db)

/-- C6: `ensure_unique_path` returns the requested path unchanged when it
exists neither on disk nor in the registry; otherwise it returns the
` (n)`-suffixed candidate with the smallest `n ≥ 1` passing both the disk
and the registry check; consequently the paths produced by N successive
admissions of the same filename are pairwise distinct. -/
theorem unique_path_resolution :
    (∀ (disk db : List String) (parent stem extension : String),
      isFree disk db (joinPath parent (renderName stem extension)) = true →
        ensure_unique_path disk db parent stem extension
          = joinPath parent (renderName stem extension)) ∧
    (∀ (disk db : List String) (parent stem extension : String),
      isFree disk db (joinPath parent (renderName stem extension)) = false →
        ∃ n, 1 ≤ n ∧
          ensure_unique_path disk db parent stem extension = candPath parent stem extension n ∧
          isFree disk db (candPath parent stem extension n) = true ∧
          ∀ m, 1 ≤ m → m < n →
            isFree disk db (candPath parent stem extension m) = false) ∧
    (∀ (disk db : List String) (parent stem extension : String) (N : Nat),
      (admitPaths disk db parent stem extension N).Nodup) := by
  refine ⟨?_, ?_, ?_⟩
  · intro disk db parent stem extension hfree
    simp [ensure_unique_path, hfree]
  · intro disk db parent stem extension hfree
    exact ensure_unique_path_cases disk db parent stem extension hfree
  · intro disk db parent stem extension N
    exact admitPaths_nodup disk parent stem extension N db

/-- C6 witness: a free path is kept; a colliding `movie.mkv` gets the
smallest free suffix. -/
theorem unique_path_resolution_witness :
    ensure_unique_path [] [] "/d" "movie" "mkv" = "/d/movie.mkv" ∧
    (∃ n, 1 ≤ n ∧
      ensure_unique_path [] ["/d/movie.mkv"] "/d" "movie" "mkv"
        = candPath "/d" "movie" "mkv" n ∧
      isFree [] ["/d/movie.mkv"] (candPath "/d" "movie" "mkv" n) = true ∧
      ∀ m, 1 ≤ m → m < n →
        isFree [] ["/d/movie.mkv"] (candPath "/d" "movie" "mkv" m) = false) :=
  ⟨unique_path_resolution.1 [] [] "/d" "movie" "mkv" (by decide),
    unique_path_resolution.2.1 [] ["/d/movie.mkv"] "/d" "movie" "mkv" (by decide)⟩

end Ciel
